/-
Verification of the `FixedBufferResource` arena allocator and the
allocator-backed `Stack` of OOP-lab5 (src/main.cpp).

Modelling conventions:
* Pointers are byte addresses, modelled as natural numbers; `0` plays the
  role of `nullptr`.  `operator new` never yields a null buffer, so theorems
  about null-sensitive paths assume `1 ≤ base`.
* The arena's buffer is the address range `[base, base + capacity)`.
* `throw std::bad_alloc` is modelled by returning `none`; the C++ `throw`
  happens before any mutation of `used` or of the free list, so a failing
  call leaves the arena unchanged, which the `Option` result reflects.
* All the `size_t` arithmetic performed by the source on reachable states
  stays far below `2 ^ 64` and never underflows (each subtraction is guarded
  by a comparison on the same path), so plain `Nat` arithmetic coincides
  with the C++ `size_t` arithmetic everywhere it is used here.
* `std::align(alignment, bytes, ptr, space)` receives `ptr` by reference
  and, on success, overwrites `ptr` with the aligned address (and shrinks
  `space`) besides returning that address.  Consequently, in
  `do_allocate`'s free-list branch the source's
  `wasted = (char*)aligned_ptr - (char*)ptr` is always `0`, and
  `remaining = block_size - wasted - bytes` equals `block_size - bytes`:
  the alignment slack is folded into the re-inserted remainder block.
  The embedding reproduces this behaviour faithfully.
* `Stack<T>` requests one object-sized, object-aligned allocation per node;
  the byte size and alignment that one node allocation uses are abstracted
  as parameters `nb` and `na` (C++ guarantees `1 ≤ na` and `na ∣ nb` for
  any object type, which some theorems assume).  Node construction may
  throw (copy/move of the value); whether it does is an explicit `Bool`
  oracle argument, since value semantics are outside the allocator model.
-/
import Mathlib

namespace OOPLab5

/-- A reclaimed span, the source's `FreeBlock = std::pair<void*, std::size_t>`:
`(address, size)`. -/
abbrev FreeBlock := Nat × Nat

/-- State of a `FixedBufferResource`: buffer base address, `buffer_size`
(the fixed capacity), the high-water mark `used`, and the free list. -/
structure Arena where
  base : Nat
  capacity : Nat
  used : Nat
  freeList : List FreeBlock
deriving DecidableEq

/-- `p` rounded up to the next multiple of `alignment`: the address that
`std::align` produces for a power-of-two alignment. -/
def alignUp (alignment p : Nat) : Nat :=
  ((p + alignment - 1) / alignment) * alignment

/-- `std::align(alignment, bytes, ptr, space)`: the aligned address, when an
aligned span of `bytes` bytes fits inside `[ptr, ptr + space)`; otherwise
`none` (C++: a null result, leaving `ptr`/`space` unchanged). -/
def stdAlign (alignment bytes ptr space : Nat) : Option Nat :=
  if alignUp alignment ptr + bytes ≤ ptr + space then some (alignUp alignment ptr)
  else none

/-- A free block can serve a `(bytes, alignment)` request exactly when an
aligned span of `bytes` bytes fits inside it — the success test of
`std::align` on that block. -/
def fits (alignment bytes : Nat) (b : FreeBlock) : Prop :=
  alignUp alignment b.1 + bytes ≤ b.1 + b.2

instance (alignment bytes : Nat) (b : FreeBlock) : Decidable (fits alignment bytes b) :=
  inferInstanceAs (Decidable (_ ≤ _))

/-- The free-list loop of `FixedBufferResource::do_allocate`: first-fit scan
in list order.  On a hit the block is erased and, when `remaining > 0`, the
remainder is appended at the back of the list.  Because `std::align` has
already overwritten the loop's local `ptr` with the aligned address, the
source's `wasted` is `0` and `remaining = block_size - bytes`. -/
def allocFromFree (alignment bytes : Nat) : List FreeBlock → Option (Nat × List FreeBlock)
  | [] => none
  | (p, s) :: rest =>
    match stdAlign alignment bytes p s with
    | some aligned =>
      let wasted := 0
      let remaining := s - wasted - bytes
      if 0 < remaining then some (aligned, rest ++ [(aligned + bytes, remaining)])
      else some (aligned, rest)
    | none =>
      match allocFromFree alignment bytes rest with
      | some (addr, l) => some (addr, (p, s) :: l)
      | none => none

/-- `FixedBufferResource::do_allocate`: first the free-list scan, then the
bump path from `buffer + used`; `none` models `throw std::bad_alloc`. -/
def do_allocate (a : Arena) (bytes alignment : Nat) : Option (Nat × Arena) :=
  match allocFromFree alignment bytes a.freeList with
  | some (addr, fl) => some (addr, { a with freeList := fl })
  | none =>
    match stdAlign alignment bytes (a.base + a.used) (a.capacity - a.used) with
    | none => none
    | some aligned =>
      let wasted := aligned - (a.base + a.used)
      if a.used + wasted + bytes > a.capacity then none
      else some (aligned, { a with used := a.used + wasted + bytes })

/-- `FixedBufferResource::do_deallocate`: ignores a null pointer, otherwise
appends `(p, bytes)` at the back of the free list.  The `alignment` argument
is ignored, as in the source. -/
def do_deallocate (a : Arena) (p bytes alignment : Nat) : Arena :=
  if p = 0 then a else { a with freeList := a.freeList ++ [(p, bytes)] }

/-- One external call on the arena, for whole-trace statements. -/
inductive AOp where
  | alloc (bytes alignment : Nat)
  | dealloc (p bytes alignment : Nat)

/-- One arena call: the next arena state, plus the returned address for a
successful allocation.  A failing allocation (C++: `bad_alloc` thrown)
leaves the arena unchanged. -/
def arenaStep (a : Arena) : AOp → Arena × Option Nat
  | .alloc bytes alignment =>
    match do_allocate a bytes alignment with
    | some (addr, a1) => (a1, some addr)
    | none => (a, none)
  | .dealloc p bytes alignment => (do_deallocate a p bytes alignment, none)

/-- Run a sequence of arena calls, collecting every address returned by a
successful allocation. -/
def runArena : Arena → List AOp → Arena × List Nat
  | a, [] => (a, [])
  | a, op :: ops =>
    let r := arenaStep a op
    let rest := runArena r.1 ops
    (rest.1, r.2.toList ++ rest.2)

/-- The node store: entries `(address, value, next)` for every `Stack::Node`
ever constructed, most recent first; a later node constructed at a reused
address is consed in front and shadows the stale entry.  (Lookups take the
first hit, i.e. the latest write to that address.) -/
def lookupHeap {α : Type} : List (Nat × α × Nat) → Nat → Option (α × Nat)
  | [], _ => none
  | (b, v, n) :: rest, a => if b = a then some (v, n) else lookupHeap rest a

/-- State of a `Stack<T>` together with the arena backing its allocator:
the arena, the node store, and `top_node` (`0` = null). -/
structure StackState (α : Type) where
  arena : Arena
  heap : List (Nat × α × Nat)
  top_node : Nat
deriving DecidableEq

/-- Outcome of one `Stack::push` call. -/
inductive PushOutcome where
  | ok
  | outOfMemory
  | ctorFailed
deriving DecidableEq

/-- `Stack::push(value)`: allocate one node (`nb` bytes, alignment `na`),
construct the node in place (value plus `next = top_node`), and move
`top_node` to the new node.  If the allocation throws, nothing happened; if
the value construction throws (`ctorFails = true`), the `catch (...)` block
deallocates the node before re-throwing, so the chain is untouched. -/
def pushS {α : Type} (nb na : Nat) (s : StackState α) (v : α) (ctorFails : Bool) :
    StackState α × PushOutcome :=
  match do_allocate s.arena nb na with
  | none => (s, .outOfMemory)
  | some (addr, ar) =>
    if ctorFails then
      ({ s with arena := do_deallocate ar addr nb na }, .ctorFailed)
    else
      ({ arena := ar, heap := (addr, v, s.top_node) :: s.heap, top_node := addr }, .ok)

/-- `Stack::pop`: a no-op on an empty stack; otherwise destroy the head
node's value, deallocate the node and advance `top_node` to its `next`
link.  Destroying the value has no observable effect in a value model; the
`none` branch of the lookup is unreachable from states reachable by stack
operations (the chain invariant proved below). -/
def popS {α : Type} (nb na : Nat) (s : StackState α) : StackState α :=
  if s.top_node = 0 then s
  else
    match lookupHeap s.heap s.top_node with
    | none => s
    | some (_, nx) =>
      { s with top_node := nx, arena := do_deallocate s.arena s.top_node nb na }

/-- `Stack::top`: the value stored at `top_node` (`none` when empty; the
source only `assert`s non-emptiness). -/
def topS {α : Type} (s : StackState α) : Option α :=
  (lookupHeap s.heap s.top_node).map Prod.fst

/-- Values yielded by `Stack::iterator` from the node at address `cur`
onwards: follow `next` links until null.  `fuel` is an upper bound on the
number of steps; any fuel at least the chain length gives the full
traversal. -/
def iterToList {α : Type} (h : List (Nat × α × Nat)) : Nat → Nat → List α
  | 0, _ => []
  | fuel + 1, cur =>
    if cur = 0 then []
    else
      match lookupHeap h cur with
      | none => []
      | some (v, nx) => v :: iterToList h fuel nx

/-- The chain from address `t` spells exactly the spine `spine` (list of
`(address, value)` pairs from head down, ending in the null link). -/
def chainIs {α : Type} (h : List (Nat × α × Nat)) : Nat → List (Nat × α) → Prop
  | t, [] => t = 0
  | t, (a, v) :: rest =>
    t = a ∧ a ≠ 0 ∧ ∃ nx, lookupHeap h a = some (v, nx) ∧ chainIs h nx rest

/-- One external call on the stack: `push` (with its construction-failure
oracle) or `pop`. -/
inductive SOp (α : Type) where
  | push (v : α) (ctorFails : Bool)
  | pop

/-- Run a sequence of stack calls from state `s`, also maintaining the
abstract model `m`: the live (pushed and not yet popped) values, most
recently pushed first. -/
def runS {α : Type} (nb na : Nat) : StackState α → List α → List (SOp α) → StackState α × List α
  | s, m, [] => (s, m)
  | s, m, .push v cf :: ops =>
    match pushS nb na s v cf with
    | (s1, .ok) => runS nb na s1 (v :: m) ops
    | (s1, _) => runS nb na s1 m ops
  | s, m, .pop :: ops => runS nb na (popS nb na s) m.tail ops

/-- Two byte spans `[p1, p1 + s1)` and `[p2, p2 + s2)` do not overlap. -/
def spanDisj (p1 s1 p2 s2 : Nat) : Prop :=
  p1 + s1 ≤ p2 ∨ p2 + s2 ≤ p1

/-- Reachability invariant tying a stack state to the spine of its chain:
`spine` lists the live nodes `(address, value)` from head down.  Node spans
are `nb` bytes, `na`-aligned; they sit inside the committed part of the
buffer, pairwise disjoint, and disjoint from every registered free block;
free blocks also sit inside the committed part, `na`-aligned and pairwise
disjoint. -/
structure Inv (nb na : Nat) {α : Type} (s : StackState α) (spine : List (Nat × α)) : Prop where
  usedLe : s.arena.used ≤ s.arena.capacity
  basePos : 1 ≤ s.arena.base
  chain : chainIs s.heap s.top_node spine
  liveLB : ∀ x ∈ spine, s.arena.base ≤ x.1
  liveUB : ∀ x ∈ spine, x.1 + nb ≤ s.arena.base + s.arena.used
  liveAl : ∀ x ∈ spine, na ∣ x.1
  liveDisj : spine.Pairwise (fun x y => spanDisj x.1 nb y.1 nb)
  freeLB : ∀ b ∈ s.arena.freeList, s.arena.base ≤ b.1
  freeUB : ∀ b ∈ s.arena.freeList, b.1 + b.2 ≤ s.arena.base + s.arena.used
  freeAl : ∀ b ∈ s.arena.freeList, na ∣ b.1
  freeDisj : s.arena.freeList.Pairwise (fun b c => spanDisj b.1 b.2 c.1 c.2)
  freeLive : ∀ b ∈ s.arena.freeList, ∀ x ∈ spine, spanDisj b.1 b.2 x.1 nb

/-! ### Arithmetic facts about `alignUp` and `stdAlign` -/

theorem le_alignUp (alignment p : Nat) (h : 1 ≤ alignment) : p ≤ alignUp alignment p := by
  unfold alignUp
  rw [Nat.mul_comm]
  have hd := Nat.div_add_mod (p + alignment - 1) alignment
  have hm : (p + alignment - 1) % alignment < alignment := Nat.mod_lt _ h
  set n := p + alignment - 1 with hn
  set q := n / alignment with hq
  set r := n % alignment with hr
  set Q := alignment * q with hQ
  omega

theorem dvd_alignUp (alignment p : Nat) : alignment ∣ alignUp alignment p := by
  unfold alignUp
  exact Dvd.intro_left _ rfl

theorem alignUp_of_dvd (alignment p : Nat) (h1 : 1 ≤ alignment) (h : alignment ∣ p) :
    alignUp alignment p = p := by
  obtain ⟨m, rfl⟩ := h
  unfold alignUp
  rw [Nat.add_sub_assoc h1, Nat.mul_add_div (by omega), Nat.div_eq_of_lt (by omega),
    Nat.add_zero, Nat.mul_comm]

theorem alignUp_one (p : Nat) : alignUp 1 p = p := by
  unfold alignUp
  simp

theorem stdAlign_pos {alignment bytes ptr space : Nat}
    (h : alignUp alignment ptr + bytes ≤ ptr + space) :
    stdAlign alignment bytes ptr space = some (alignUp alignment ptr) := by
  unfold stdAlign
  exact if_pos h

theorem stdAlign_none {alignment bytes ptr space : Nat}
    (h : ¬ alignUp alignment ptr + bytes ≤ ptr + space) :
    stdAlign alignment bytes ptr space = none := by
  unfold stdAlign
  exact if_neg h

theorem stdAlign_some {alignment bytes ptr space a : Nat}
    (h : stdAlign alignment bytes ptr space = some a) :
    a = alignUp alignment ptr ∧ alignUp alignment ptr + bytes ≤ ptr + space := by
  unfold stdAlign at h
  split at h
  · exact ⟨(Option.some.inj h).symm, by assumption⟩
  · exact absurd h (by simp)

theorem not_fits_of_stdAlign_none {alignment bytes p s : Nat}
    (h : stdAlign alignment bytes p s = none) : ¬ fits alignment bytes (p, s) := by
  intro hf
  have hf' : alignUp alignment p + bytes ≤ p + s := hf
  rw [stdAlign_pos hf'] at h
  simp at h

theorem stdAlign_none_of_not_fits {alignment bytes p s : Nat}
    (h : ¬ fits alignment bytes (p, s)) : stdAlign alignment bytes p s = none :=
  stdAlign_none h

/-! ### The free-list scan -/

theorem allocFromFree_none (alignment bytes : Nat) (fl : List FreeBlock)
    (h : ∀ b ∈ fl, ¬ fits alignment bytes b) :
    allocFromFree alignment bytes fl = none := by
  induction fl with
  | nil => rfl
  | cons b rest ih =>
    obtain ⟨p, s⟩ := b
    have hs : stdAlign alignment bytes p s = none :=
      stdAlign_none_of_not_fits (h (p, s) (by simp))
    have hr : allocFromFree alignment bytes rest = none :=
      ih (fun b hb => h b (by simp [hb]))
    unfold allocFromFree
    rw [hs, hr]

theorem allocFromFree_first (alignment bytes p s : Nat) (l1 l2 : List FreeBlock)
    (h1 : ∀ b ∈ l1, ¬ fits alignment bytes b) (h2 : fits alignment bytes (p, s)) :
    allocFromFree alignment bytes (l1 ++ (p, s) :: l2) =
      some (alignUp alignment p,
        l1 ++ l2 ++
          (if 0 < s - bytes then [(alignUp alignment p + bytes, s - bytes)] else [])) := by
  induction l1 with
  | nil =>
    have h2' : alignUp alignment p + bytes ≤ p + s := h2
    have hs := stdAlign_pos h2'
    simp only [List.nil_append, allocFromFree, hs, Nat.sub_zero]
    split <;> simp
  | cons b rest ih =>
    obtain ⟨q, t⟩ := b
    have hs : stdAlign alignment bytes q t = none :=
      stdAlign_none_of_not_fits (h1 (q, t) (by simp))
    have ih' := ih (fun b hb => h1 b (by simp [hb]))
    simp only [List.cons_append, allocFromFree, hs, List.append_eq, ih']

theorem allocFromFree_decomp (alignment bytes : Nat) (fl : List FreeBlock) (addr : Nat)
    (fl' : List FreeBlock) (h : allocFromFree alignment bytes fl = some (addr, fl')) :
    ∃ l1 p s l2, fl = l1 ++ (p, s) :: l2 ∧ (∀ b ∈ l1, ¬ fits alignment bytes b) ∧
      fits alignment bytes (p, s) ∧ addr = alignUp alignment p ∧
      fl' = l1 ++ l2 ++ (if 0 < s - bytes then [(addr + bytes, s - bytes)] else []) := by
  induction fl generalizing fl' with
  | nil => simp [allocFromFree] at h
  | cons b rest ih =>
    obtain ⟨q, t⟩ := b
    unfold allocFromFree at h
    cases hst : stdAlign alignment bytes q t with
    | some al =>
      rw [hst] at h
      obtain ⟨hal, hcond⟩ := stdAlign_some hst
      have hfit : fits alignment bytes (q, t) := by
        have : alignUp alignment q + bytes ≤ q + t := hcond
        exact this
      simp only [Nat.sub_zero] at h
      split at h
      · obtain ⟨ha, hl⟩ := Prod.mk.injEq .. ▸ Option.some.inj h
        refine ⟨[], q, t, rest, by simp, by simp, hfit, by omega, ?_⟩
        subst ha hal
        rw [if_pos (by assumption)]
        simp [hl.symm]
      · obtain ⟨ha, hl⟩ := Prod.mk.injEq .. ▸ Option.some.inj h
        refine ⟨[], q, t, rest, by simp, by simp, hfit, by omega, ?_⟩
        subst ha hal
        rw [if_neg (by assumption)]
        simp [hl.symm]
    | none =>
      rw [hst] at h
      cases har : allocFromFree alignment bytes rest with
      | none => rw [har] at h; simp at h
      | some r =>
        obtain ⟨a2, L⟩ := r
        rw [har] at h
        simp only at h
        obtain ⟨ha, hl⟩ := Prod.mk.injEq .. ▸ Option.some.inj h
        subst ha
        obtain ⟨l1, p, s, l2, hrest, hno, hfit, haddr, hL⟩ := ih L har
        refine ⟨(q, t) :: l1, p, s, l2, by simp [hrest], ?_, hfit, haddr, ?_⟩
        · intro b hb
          rcases List.mem_cons.mp hb with hb | hb
          · subst hb; exact not_fits_of_stdAlign_none hst
          · exact hno b hb
        · simp [hl.symm, hL]

theorem do_deallocate_eq_append (a : Arena) (p bytes alignment : Nat) (hp : p ≠ 0) :
    do_deallocate a p bytes alignment =
      { a with freeList := a.freeList ++ [(p, bytes)] } := by
  unfold do_deallocate
  exact if_neg hp

/-! ### C10 — null deallocation -/

/-- C10: `do_deallocate` with a null pointer is a no-op: no registry entry is
appended, `used` is untouched, the arena state is unchanged. -/
theorem deallocate_null_is_noop (a : Arena) (bytes alignment : Nat) :
    do_deallocate a 0 bytes alignment = a := rfl

/-! ### C7 — deallocation appends to the registry -/

/-- C7 counterexample: deallocation is not unconditional — for a null
address the early return skips the append, so the registry does not gain
`(0, 16)` here. -/
theorem deallocate_not_unconditional :
    ¬ (do_deallocate ⟨1, 64, 0, []⟩ 0 16 8).freeList =
        (Arena.mk 1 64 0 []).freeList ++ [(0, 16)] := by decide

/-- C7 (amended): for every non-null address, `do_deallocate` appends
`(address, size)` at the back of the registry and does nothing else: no
further validation, no coalescing with adjacent or overlapping blocks, and
no change to `used` (or any other field). -/
theorem deallocate_appends (a : Arena) (p bytes alignment : Nat) (hp : p ≠ 0) :
    do_deallocate a p bytes alignment =
      { a with freeList := a.freeList ++ [(p, bytes)] } :=
  do_deallocate_eq_append a p bytes alignment hp

theorem deallocate_appends_witness :
    (3 : Nat) ≠ 0 ∧
      do_deallocate ⟨1, 64, 10, [(5, 2)]⟩ 3 16 8 =
        { Arena.mk 1 64 10 [(5, 2)] with freeList := [(5, 2)] ++ [(3, 16)] } :=
  ⟨by decide, deallocate_appends ⟨1, 64, 10, [(5, 2)]⟩ 3 16 8 (by decide)⟩

/-! ### C8 — returned addresses are aligned -/

/-- C8: every successful allocation returns an address that is an exact
multiple of the requested power-of-two alignment, on the free-list reuse
path as well as on the bump path. -/
theorem allocate_returns_aligned (a : Arena) (bytes alignment k addr : Nat) (a' : Arena)
    (hpow : alignment = 2 ^ k) (h : do_allocate a bytes alignment = some (addr, a')) :
    addr % alignment = 0 := by
  have hdvd : alignment ∣ addr := by
    unfold do_allocate at h
    split at h
    · next addr0 fl hfl =>
      obtain ⟨h1, h2⟩ := Prod.mk.injEq .. ▸ Option.some.inj h
      obtain ⟨l1, p, s, l2, _, _, _, haddr, _⟩ :=
        allocFromFree_decomp alignment bytes a.freeList addr0 fl hfl
      rw [← h1, haddr]
      exact dvd_alignUp alignment p
    · split at h
      · exact absurd h (by simp)
      · next al hst =>
        obtain ⟨hal, _⟩ := stdAlign_some hst
        have h2 : (if a.used + (al - (a.base + a.used)) + bytes > a.capacity then
              (none : Option (Nat × Arena))
            else some (al, { a with used := a.used + (al - (a.base + a.used)) + bytes })) =
            some (addr, a') := h
        split at h2
        · exact absurd h2 (by simp)
        · obtain ⟨h1, _⟩ := Prod.mk.injEq .. ▸ Option.some.inj h2
          rw [← h1, hal]
          exact dvd_alignUp alignment (a.base + a.used)
  obtain ⟨c, rfl⟩ := hdvd
  exact Nat.mul_mod_right alignment c

theorem allocate_returns_aligned_witness :
    (8 : Nat) = 2 ^ 3 ∧
      do_allocate ⟨4, 100, 0, []⟩ 10 8 = some (8, ⟨4, 100, 14, []⟩) ∧
      (8 : Nat) % 8 = 0 :=
  ⟨by decide, by decide,
    allocate_returns_aligned ⟨4, 100, 0, []⟩ 10 8 3 8 ⟨4, 100, 14, []⟩ (by decide) (by decide)⟩

/-! ### C2 — the split of a reused block (code bug) -/

/-- C2 (code bug): serving `allocate(1, 4)` from the registered block
`(17, 7)` places the allocation at the aligned address `20` (3 bytes of
alignment waste), but the re-inserted remainder is `(21, 6)` — size
`block_size - bytes` — instead of `(21, 3)` = block size minus the
alignment waste minus the request, as the claim (and the source's own
`wasted`/`remaining` naming) prescribes: `std::align` has already advanced
the local `ptr`, so the source's `wasted` is always `0`.  The remainder
even extends three bytes past the end of the original block
(`17 + 7 < 21 + 6`). -/
theorem allocate_split_miscounts_waste :
    do_allocate ⟨16, 64, 8, [(17, 7)]⟩ 1 4 = some (20, ⟨16, 64, 8, [(21, 6)]⟩) ∧
      (17 : Nat) + 7 < 21 + 6 ∧ (6 : Nat) ≠ 7 - (20 - 17) - 1 := by decide

/-! ### C9 — arena-wide invariant (code bug) -/

/-- C9 (code bug): a contract-respecting trace — every `dealloc` returns
exactly a span previously handed out by `alloc`, every request has positive
size and power-of-two alignment — on the arena `[1, 1 + 8)` in which the
final allocation returns address `9 = base + capacity`, outside the buffer
`[1, 9)`.  The escape is caused by the remainder bug: re-inserted remainder
blocks extend past the end of the block they were split from. -/
theorem allocate_escapes_arena :
    (runArena ⟨1, 8, 0, []⟩
        [.alloc 7 1, .dealloc 1 7 1, .alloc 1 4, .dealloc 4 1 4,
         .alloc 1 8, .dealloc 8 1 8, .alloc 2 1]).2 = [1, 4, 8, 9] ∧
      ¬ ((9 : Nat) < 1 + 8) := by decide

/-! ### C1 — first-fit over the registry, then bump -/

/-- C1: `allocate(bytes, alignment)` (positive size, power-of-two alignment)
first scans the registry in its current order: the first registered block
that can contain an aligned span of `bytes` bytes serves the request, at an
aligned address inside that block.  Only when no registered block fits does
it bump-allocate: the aligned address at or after `base + used` is returned
exactly when `aligned + bytes ≤ base + capacity`, committing
`used := aligned + bytes - base`; otherwise the call fails. -/
theorem allocate_first_fit_then_bump (a : Arena) (bytes alignment k : Nat)
    (hb : 0 < bytes) (hal : alignment = 2 ^ k) (hu : a.used ≤ a.capacity) :
    (∀ l1 p s l2,
        a.freeList = l1 ++ (p, s) :: l2 →
        (∀ b ∈ l1, ¬ fits alignment bytes b) →
        fits alignment bytes (p, s) →
        do_allocate a bytes alignment =
          some (alignUp alignment p,
            { a with freeList :=
                l1 ++ l2 ++
                  (if 0 < s - bytes then [(alignUp alignment p + bytes, s - bytes)] else []) }) ∧
        p ≤ alignUp alignment p ∧ alignUp alignment p + bytes ≤ p + s) ∧
    ((∀ b ∈ a.freeList, ¬ fits alignment bytes b) →
        a.base + a.used ≤ alignUp alignment (a.base + a.used) ∧
        (alignUp alignment (a.base + a.used) + bytes ≤ a.base + a.capacity →
          do_allocate a bytes alignment =
            some (alignUp alignment (a.base + a.used),
              { a with used := alignUp alignment (a.base + a.used) + bytes - a.base })) ∧
        (a.base + a.capacity < alignUp alignment (a.base + a.used) + bytes →
          do_allocate a bytes alignment = none)) := by
  have hal1 : 1 ≤ alignment := by
    rw [hal]
    exact Nat.one_le_two_pow
  constructor
  · intro l1 p s l2 hfl h1 h2
    have h2' : alignUp alignment p + bytes ≤ p + s := h2
    refine ⟨?_, le_alignUp alignment p hal1, h2'⟩
    unfold do_allocate
    rw [hfl, allocFromFree_first alignment bytes p s l1 l2 h1 h2]
  · intro hnone
    have hf : allocFromFree alignment bytes a.freeList = none :=
      allocFromFree_none alignment bytes a.freeList hnone
    have hge : a.base + a.used ≤ alignUp alignment (a.base + a.used) :=
      le_alignUp alignment (a.base + a.used) hal1
    refine ⟨hge, ?_, ?_⟩
    · intro hle
      have hst : stdAlign alignment bytes (a.base + a.used) (a.capacity - a.used) =
          some (alignUp alignment (a.base + a.used)) := stdAlign_pos (by omega)
      unfold do_allocate
      rw [hf, hst]
      show (if a.used + (alignUp alignment (a.base + a.used) - (a.base + a.used)) + bytes >
              a.capacity then none
          else some (alignUp alignment (a.base + a.used),
            { a with used :=
                a.used + (alignUp alignment (a.base + a.used) - (a.base + a.used)) + bytes })) =
        some (alignUp alignment (a.base + a.used),
          { a with used := alignUp alignment (a.base + a.used) + bytes - a.base })
      rw [if_neg (by omega)]
      have hused : a.used + (alignUp alignment (a.base + a.used) - (a.base + a.used)) + bytes =
          alignUp alignment (a.base + a.used) + bytes - a.base := by omega
      rw [hused]
    · intro hgt
      have hst : stdAlign alignment bytes (a.base + a.used) (a.capacity - a.used) = none :=
        stdAlign_none (by omega)
      unfold do_allocate
      rw [hf, hst]

theorem allocate_first_fit_then_bump_witness :
    (0 < 1 ∧ (4 : Nat) = 2 ^ 2 ∧ 8 ≤ 64) ∧
      do_allocate ⟨16, 64, 8, [(17, 7)]⟩ 1 4 = some (20, ⟨16, 64, 8, [(21, 6)]⟩) ∧
      (17 : Nat) ≤ 20 ∧ (20 : Nat) + 1 ≤ 17 + 7 :=
  ⟨⟨by decide, by decide, by decide⟩,
    (allocate_first_fit_then_bump ⟨16, 64, 8, [(17, 7)]⟩ 1 4 2 (by decide) (by decide)
        (by decide)).1 [] 17 7 [] rfl (by simp) (by decide)⟩

/-! ### C3 — exhaustion boundary -/

/-- C3: on a fresh arena of capacity `C` (empty registry, `used = 0`),
`allocate(C, 1)` succeeds, returns the buffer base and commits the whole
arena (`used = C`); a subsequent `allocate(1, 1)` fails; and in general
whenever no registered block fits and the aligned bump address leaves no
room (`base + capacity < aligned + bytes`), the call fails (`bad_alloc`,
i.e. `none`) and the arena is unchanged — no retry, no growth. -/
theorem exhaustion_boundary (B C : Nat) (hC : 0 < C) :
    do_allocate ⟨B, C, 0, []⟩ C 1 = some (B, ⟨B, C, C, []⟩) ∧
    do_allocate ⟨B, C, C, []⟩ 1 1 = none ∧
    (∀ (a : Arena) (bytes alignment : Nat),
        (∀ b ∈ a.freeList, ¬ fits alignment bytes b) →
        a.used ≤ a.capacity →
        a.base + a.capacity < alignUp alignment (a.base + a.used) + bytes →
        arenaStep a (AOp.alloc bytes alignment) = (a, none)) := by
  refine ⟨?_, ?_, ?_⟩
  · have hst : stdAlign 1 C (B + 0) (C - 0) = some (alignUp 1 (B + 0)) :=
      stdAlign_pos (by rw [alignUp_one]; omega)
    simp only [do_allocate, allocFromFree]
    rw [hst]
    show (if 0 + (alignUp 1 (B + 0) - (B + 0)) + C > C then none
        else some (alignUp 1 (B + 0),
          { Arena.mk B C 0 [] with used := 0 + (alignUp 1 (B + 0) - (B + 0)) + C })) =
      some (B, ⟨B, C, C, []⟩)
    rw [alignUp_one, if_neg (by omega)]
    have h1 : 0 + (B + 0 - (B + 0)) + C = C := by omega
    rw [h1]
    have h2 : B + 0 = B := by omega
    rw [h2]
  · have hst : stdAlign 1 1 (B + C) (C - C) = none :=
      stdAlign_none (by rw [alignUp_one]; omega)
    simp only [do_allocate, allocFromFree]
    rw [hst]
  · intro a bytes alignment hno hu hlt
    have hf : allocFromFree alignment bytes a.freeList = none :=
      allocFromFree_none alignment bytes a.freeList hno
    have hst : stdAlign alignment bytes (a.base + a.used) (a.capacity - a.used) = none :=
      stdAlign_none (by omega)
    have hda : do_allocate a bytes alignment = none := by
      unfold do_allocate
      rw [hf, hst]
    simp only [arenaStep]
    rw [hda]

theorem exhaustion_boundary_witness :
    0 < 16 ∧
      do_allocate ⟨1, 16, 0, []⟩ 16 1 = some (1, ⟨1, 16, 16, []⟩) ∧
      do_allocate ⟨1, 16, 16, []⟩ 1 1 = none ∧
      arenaStep ⟨1, 16, 16, []⟩ (AOp.alloc 4 8) = (⟨1, 16, 16, []⟩, none) :=
  ⟨by decide,
    (exhaustion_boundary 1 16 (by decide)).1,
    (exhaustion_boundary 1 16 (by decide)).2.1,
    (exhaustion_boundary 1 16 (by decide)).2.2 ⟨1, 16, 16, []⟩ 4 8 (by simp) (by decide)
      (by decide)⟩

/-! ### Inversion of `do_allocate` -/

theorem exists_first_fit (alignment bytes : Nat) (fl : List FreeBlock)
    (h : ∃ b ∈ fl, fits alignment bytes b) :
    ∃ l1 p s l2, fl = l1 ++ (p, s) :: l2 ∧ (∀ b ∈ l1, ¬ fits alignment bytes b) ∧
      fits alignment bytes (p, s) := by
  induction fl with
  | nil => simp at h
  | cons b rest ih =>
    obtain ⟨q, t⟩ := b
    by_cases hq : fits alignment bytes (q, t)
    · exact ⟨[], q, t, rest, by simp, by simp, hq⟩
    · obtain ⟨c, hc, hcf⟩ := h
      rcases List.mem_cons.mp hc with hc | hc
      · subst hc; exact absurd hcf hq
      · obtain ⟨l1, p, s, l2, hd, hno, hfit⟩ := ih ⟨c, hc, hcf⟩
        refine ⟨(q, t) :: l1, p, s, l2, by simp [hd], ?_, hfit⟩
        intro b hb
        rcases List.mem_cons.mp hb with hb | hb
        · subst hb; exact hq
        · exact hno b hb

theorem not_fits_of_allocFromFree_none (alignment bytes : Nat) (fl : List FreeBlock)
    (h : allocFromFree alignment bytes fl = none) : ∀ b ∈ fl, ¬ fits alignment bytes b := by
  intro b hb hf
  obtain ⟨l1, p, s, l2, hd, hno, hfit⟩ := exists_first_fit alignment bytes fl ⟨b, hb, hf⟩
  rw [hd, allocFromFree_first alignment bytes p s l1 l2 hno hfit] at h
  simp at h

/-- The two ways a successful `do_allocate` can go: reuse of the first
fitting registered block, or a bump from the high-water mark. -/
theorem do_allocate_cases (a : Arena) (bytes alignment addr : Nat) (a' : Arena)
    (h : do_allocate a bytes alignment = some (addr, a')) :
    (∃ l1 p s l2,
        a.freeList = l1 ++ (p, s) :: l2 ∧ (∀ b ∈ l1, ¬ fits alignment bytes b) ∧
        fits alignment bytes (p, s) ∧ addr = alignUp alignment p ∧
        a' = { a with freeList :=
          l1 ++ l2 ++ (if 0 < s - bytes then [(addr + bytes, s - bytes)] else []) }) ∨
    ((∀ b ∈ a.freeList, ¬ fits alignment bytes b) ∧
        addr = alignUp alignment (a.base + a.used) ∧
        addr + bytes ≤ (a.base + a.used) + (a.capacity - a.used) ∧
        a' = { a with used := a.used + (addr - (a.base + a.used)) + bytes }) := by
  unfold do_allocate at h
  split at h
  · next addr0 fl hfl =>
    obtain ⟨h1, h2⟩ := Prod.mk.injEq .. ▸ Option.some.inj h
    obtain ⟨l1, p, s, l2, hdec, hno, hfit, haddr, hfl'⟩ :=
      allocFromFree_decomp alignment bytes a.freeList addr0 fl hfl
    subst h1
    exact Or.inl ⟨l1, p, s, l2, hdec, hno, hfit, haddr, by rw [← h2, hfl']⟩
  · next hfl =>
    split at h
    · exact absurd h (by simp)
    · next al hst =>
      obtain ⟨hal, hcond⟩ := stdAlign_some hst
      have h2 : (if a.used + (al - (a.base + a.used)) + bytes > a.capacity then
            (none : Option (Nat × Arena))
          else some (al, { a with used := a.used + (al - (a.base + a.used)) + bytes })) =
          some (addr, a') := h
      split at h2
      · exact absurd h2 (by simp)
      · obtain ⟨ha, har⟩ := Prod.mk.injEq .. ▸ Option.some.inj h2
        subst ha
        refine Or.inr ⟨not_fits_of_allocFromFree_none alignment bytes a.freeList hfl,
          hal, ?_, har.symm⟩
        rw [hal]
        exact hcond

theorem do_allocate_frame (a : Arena) (bytes alignment addr : Nat) (a' : Arena)
    (h : do_allocate a bytes alignment = some (addr, a')) :
    a'.base = a.base ∧ a'.capacity = a.capacity ∧ a.used ≤ a'.used := by
  rcases do_allocate_cases a bytes alignment addr a' h with
    ⟨l1, p, s, l2, _, _, _, _, ha'⟩ | ⟨_, _, _, ha'⟩
  · subst ha'; simp
  · subst ha'
    refine ⟨rfl, rfl, ?_⟩
    show a.used ≤ a.used + (addr - (a.base + a.used)) + bytes
    omega

theorem do_allocate_addr_pos (a : Arena) (bytes alignment addr : Nat) (a' : Arena)
    (hB : 1 ≤ a.base) (hal : 1 ≤ alignment) (hfl : ∀ b ∈ a.freeList, 1 ≤ b.1)
    (h : do_allocate a bytes alignment = some (addr, a')) : 1 ≤ addr := by
  rcases do_allocate_cases a bytes alignment addr a' h with
    ⟨l1, p, s, l2, hdec, _, _, haddr, _⟩ | ⟨_, haddr, _, _⟩
  · have hp : 1 ≤ p := hfl (p, s) (by simp [hdec])
    have := le_alignUp alignment p hal
    omega
  · have := le_alignUp alignment (a.base + a.used) hal
    omega

/-! ### C4 — push is all-or-nothing -/

/-- C4: `push` is all-or-nothing.  If the node allocation fails, the whole
state is untouched and the failure propagates.  If the value construction
fails, the freshly allocated node is released back to the allocator (its
span is appended to the registry) before the failure propagates, and the
stack — head and node store — is exactly as before.  On success the stack
gains exactly one new top node holding the value, and `top_node` moves to
it. -/
theorem push_all_or_nothing {α : Type} (nb na : Nat) (s : StackState α) (v : α)
    (hB : 1 ≤ s.arena.base) (hna : 1 ≤ na) (hfl : ∀ b ∈ s.arena.freeList, 1 ≤ b.1) :
    (∀ cf, do_allocate s.arena nb na = none →
        pushS nb na s v cf = (s, PushOutcome.outOfMemory)) ∧
    (∀ addr ar, do_allocate s.arena nb na = some (addr, ar) →
        pushS nb na s v true =
          ({ s with arena := { ar with freeList := ar.freeList ++ [(addr, nb)] } },
            PushOutcome.ctorFailed)) ∧
    (∀ addr ar, do_allocate s.arena nb na = some (addr, ar) →
        pushS nb na s v false =
          ({ arena := ar, heap := (addr, v, s.top_node) :: s.heap, top_node := addr },
            PushOutcome.ok)) := by
  refine ⟨?_, ?_, ?_⟩
  · intro cf h
    unfold pushS
    rw [h]
  · intro addr ar h
    have hpos : 1 ≤ addr := do_allocate_addr_pos s.arena nb na addr ar hB hna hfl h
    unfold pushS
    rw [h]
    show ({ s with arena := do_deallocate ar addr nb na }, PushOutcome.ctorFailed) = _
    rw [do_deallocate_eq_append ar addr nb na (by omega)]
  · intro addr ar h
    unfold pushS
    rw [h]
    rfl

theorem push_all_or_nothing_witness :
    (1 ≤ 4 ∧ 1 ≤ 4) ∧
      do_allocate (⟨4, 64, 0, []⟩ : Arena) 8 4 = some (4, ⟨4, 64, 8, []⟩) ∧
      pushS 8 4 (⟨⟨4, 64, 0, []⟩, [], 0⟩ : StackState Nat) 7 false =
        (⟨⟨4, 64, 8, []⟩, [(4, 7, 0)], 4⟩, PushOutcome.ok) :=
  ⟨⟨by decide, by decide⟩, by decide,
    (push_all_or_nothing 8 4 ⟨⟨4, 64, 0, []⟩, [], 0⟩ 7 (by decide) (by decide)
        (by simp)).2.2 4 ⟨4, 64, 8, []⟩ (by decide)⟩

/-! ### C6 — pop -/

/-- C6: `pop` on an empty stack is a silent no-op (state unchanged, no error
signalled).  On a non-empty stack it detaches the head node, destroys its
value, returns the node's memory to the allocator (the registry gains the
node's span, `used` and everything else unchanged), and `top_node` becomes
the detached node's `next` link. -/
theorem pop_spec {α : Type} (nb na : Nat) (s : StackState α) :
    (s.top_node = 0 → popS nb na s = s) ∧
    (∀ v nx, s.top_node ≠ 0 → lookupHeap s.heap s.top_node = some (v, nx) →
        popS nb na s =
          { s with top_node := nx,
                   arena := { s.arena with
                     freeList := s.arena.freeList ++ [(s.top_node, nb)] } }) := by
  constructor
  · intro h
    unfold popS
    rw [if_pos h]
  · intro v nx h0 hl
    unfold popS
    rw [if_neg h0, hl]
    show { s with top_node := nx, arena := do_deallocate s.arena s.top_node nb na } = _
    rw [do_deallocate_eq_append s.arena s.top_node nb na h0]

theorem pop_spec_witness :
    (8 : Nat) ≠ 0 ∧
      lookupHeap [(8, (5 : Nat), 0)] 8 = some (5, 0) ∧
      popS 8 8 (⟨⟨1, 64, 16, []⟩, [(8, 5, 0)], 8⟩ : StackState Nat) =
        ⟨⟨1, 64, 16, [(8, 8)]⟩, [(8, 5, 0)], 0⟩ :=
  ⟨by decide, by decide,
    (pop_spec 8 8 ⟨⟨1, 64, 16, []⟩, [(8, 5, 0)], 8⟩).2 5 0 (by decide) (by decide)⟩

/-! ### Span and chain lemmas -/

theorem spanDisj_symm {p1 s1 p2 s2 : Nat} (h : spanDisj p1 s1 p2 s2) :
    spanDisj p2 s2 p1 s1 := by
  unfold spanDisj at *
  omega

theorem spanDisj_mono {p1 s1 q1 t1 p2 s2 : Nat} (h1 : p1 ≤ q1) (h2 : q1 + t1 ≤ p1 + s1)
    (h : spanDisj p1 s1 p2 s2) : spanDisj q1 t1 p2 s2 := by
  unfold spanDisj at *
  omega

theorem spanDisj_mono_right {p1 s1 p2 s2 q2 t2 : Nat} (h1 : p2 ≤ q2) (h2 : q2 + t2 ≤ p2 + s2)
    (h : spanDisj p1 s1 p2 s2) : spanDisj p1 s1 q2 t2 := by
  unfold spanDisj at *
  omega

theorem chainIs_nil_eq {α : Type} (h : List (Nat × α × Nat)) (t : Nat) :
    chainIs h t [] = (t = 0) := rfl

theorem chainIs_cons_eq {α : Type} (h : List (Nat × α × Nat)) (t a : Nat) (v : α)
    (rest : List (Nat × α)) :
    chainIs h t ((a, v) :: rest) =
      (t = a ∧ a ≠ 0 ∧ ∃ nx, lookupHeap h a = some (v, nx) ∧ chainIs h nx rest) := rfl

/-- Writing a node at a fresh address (consed in front of the store) does not
disturb any chain that avoids that address. -/
theorem chainIs_extend {α : Type} (h : List (Nat × α × Nat)) (a0 : Nat) (v0 : α) (n0 : Nat)
    (spine : List (Nat × α)) (t : Nat)
    (hc : chainIs h t spine) (hfresh : ∀ x ∈ spine, x.1 ≠ a0) :
    chainIs ((a0, v0, n0) :: h) t spine := by
  induction spine generalizing t with
  | nil => exact hc
  | cons x rest ih =>
    obtain ⟨a, v⟩ := x
    rw [chainIs_cons_eq] at hc ⊢
    obtain ⟨ht, hne, nx, hlook, hrest⟩ := hc
    refine ⟨ht, hne, nx, ?_, ih nx hrest (fun y hy => hfresh y (by simp [hy]))⟩
    have hne0 : ¬ a0 = a := fun he => hfresh (a, v) (by simp) (by simp [he])
    show (if a0 = a then some (v0, n0) else lookupHeap h a) = some (v, nx)
    rw [if_neg hne0]
    exact hlook

/-! ### The allocation step under the stack invariant -/

/-- What one successful node allocation yields, given the invariant: a
non-null, `na`-aligned address whose `nb`-byte span lies in the committed
buffer, disjoint from every live node, while the updated registry keeps all
its properties and is disjoint from the new span. -/
theorem alloc_step {α : Type} (nb na : Nat) (s : StackState α) (spine : List (Nat × α))
    (addr : Nat) (ar : Arena)
    (hinv : Inv nb na s spine) (hnb : 1 ≤ nb) (hna : 1 ≤ na) (hdvd : na ∣ nb)
    (h : do_allocate s.arena nb na = some (addr, ar)) :
    1 ≤ addr ∧ na ∣ addr ∧ s.arena.base ≤ addr ∧ addr + nb ≤ ar.base + ar.used ∧
    ar.base = s.arena.base ∧ ar.capacity = s.arena.capacity ∧
    s.arena.used ≤ ar.used ∧ ar.used ≤ ar.capacity ∧
    (∀ x ∈ spine, spanDisj addr nb x.1 nb) ∧
    (∀ b ∈ ar.freeList, ar.base ≤ b.1 ∧ b.1 + b.2 ≤ ar.base + ar.used ∧ na ∣ b.1 ∧
        spanDisj b.1 b.2 addr nb ∧ (∀ x ∈ spine, spanDisj b.1 b.2 x.1 nb)) ∧
    ar.freeList.Pairwise (fun b c => spanDisj b.1 b.2 c.1 c.2) := by
  have hbase1 : 1 ≤ s.arena.base := hinv.basePos
  rcases do_allocate_cases s.arena nb na addr ar h with
    ⟨l1, p, s2, l2, hdec, hno, hfit, haddr, har⟩ | ⟨hno, haddr, hcond, har⟩
  · -- reuse of the first fitting registered block
    have hbase : ar.base = s.arena.base := by rw [har]
    have hcapa : ar.capacity = s.arena.capacity := by rw [har]
    have hused : ar.used = s.arena.used := by rw [har]
    have hmem : (p, s2) ∈ s.arena.freeList := by rw [hdec]; simp
    have hdp : na ∣ p := hinv.freeAl (p, s2) hmem
    have haddrp : addr = p := by rw [haddr, alignUp_of_dvd na p hna hdp]
    have hfit2 : alignUp na p + nb ≤ p + s2 := hfit
    rw [alignUp_of_dvd na p hna hdp] at hfit2
    have hs2 : nb ≤ s2 := by omega
    have hLB : s.arena.base ≤ p := hinv.freeLB (p, s2) hmem
    have hUB : p + s2 ≤ s.arena.base + s.arena.used := hinv.freeUB (p, s2) hmem
    have hlive : ∀ x ∈ spine, spanDisj p s2 x.1 nb := hinv.freeLive (p, s2) hmem
    have hpw := hinv.freeDisj
    rw [hdec, List.pairwise_append, List.pairwise_cons] at hpw
    obtain ⟨hpw1, ⟨hpblock, hpw2⟩, hcross⟩ := hpw
    have hcross1 : ∀ b ∈ l1, spanDisj b.1 b.2 p s2 :=
      fun b hb => hcross b hb (p, s2) (by simp)
    have hcross12 : ∀ b ∈ l1, ∀ c ∈ l2, spanDisj b.1 b.2 c.1 c.2 :=
      fun b hb c hc => hcross b hb c (by simp [hc])
    have hfl : ar.freeList =
        l1 ++ l2 ++ (if 0 < s2 - nb then [(addr + nb, s2 - nb)] else []) := by rw [har]
    subst haddrp
    have hremlive : ∀ r ∈ (if 0 < s2 - nb then [(addr + nb, s2 - nb)] else []),
        r.1 = addr + nb ∧ r.2 = s2 - nb := by
      intro r hr
      split at hr
      · simp at hr
        simp [hr]
      · simp at hr
    refine ⟨by omega, hdp, hLB, ?_, hbase, hcapa, by omega, by rw [hused, hcapa]; exact hinv.usedLe,
        ?_, ?_, ?_⟩
    · rw [hbase, hused]
      omega
    · intro x hx
      exact spanDisj_mono le_rfl (by omega) (hlive x hx)
    · intro b hb
      rw [hfl] at hb
      rw [hbase, hused]
      simp only [List.append_assoc, List.mem_append] at hb
      rcases hb with hb | hb | hb
      · have hmemb : b ∈ s.arena.freeList := by rw [hdec]; simp [hb]
        refine ⟨hinv.freeLB b hmemb, hinv.freeUB b hmemb, hinv.freeAl b hmemb,
          spanDisj_mono_right le_rfl (by omega) (hcross1 b hb), hinv.freeLive b hmemb⟩
      · have hmemb : b ∈ s.arena.freeList := by rw [hdec]; simp [hb]
        refine ⟨hinv.freeLB b hmemb, hinv.freeUB b hmemb, hinv.freeAl b hmemb,
          spanDisj_mono_right le_rfl (by omega) (spanDisj_symm (hpblock b hb)),
          hinv.freeLive b hmemb⟩
      · obtain ⟨hr1, hr2⟩ := hremlive b hb
        refine ⟨by omega, by omega, ?_, ?_, ?_⟩
        · rw [hr1]
          exact Dvd.dvd.add hdp hdvd
        · rw [hr1, hr2]
          exact Or.inr le_rfl
        · intro x hx
          rw [hr1, hr2]
          exact spanDisj_mono (by omega) (by omega) (hlive x hx)
    · rw [hfl, List.append_assoc, List.pairwise_append]
      refine ⟨hpw1, ?_, ?_⟩
      · rw [List.pairwise_append]
        refine ⟨hpw2, ?_, ?_⟩
        · split
          · exact List.pairwise_singleton _ _
          · exact List.Pairwise.nil
        · intro c hc r hr
          obtain ⟨hr1, hr2⟩ := hremlive r hr
          rw [hr1, hr2]
          exact spanDisj_mono_right (by omega) (by omega) (spanDisj_symm (hpblock c hc))
      · intro b hb c hc
        rcases List.mem_append.mp hc with hc | hc
        · exact hcross12 b hb c hc
        · obtain ⟨hr1, hr2⟩ := hremlive c hc
          rw [hr1, hr2]
          exact spanDisj_mono_right (by omega) (by omega) (hcross1 b hb)
  · -- bump from the high-water mark
    have hbase : ar.base = s.arena.base := by rw [har]
    have hcapa : ar.capacity = s.arena.capacity := by rw [har]
    have hused : ar.used = s.arena.used + (addr - (s.arena.base + s.arena.used)) + nb := by
      rw [har]
    have hfl : ar.freeList = s.arena.freeList := by rw [har]
    have hgeBU : s.arena.base + s.arena.used ≤ addr := by
      rw [haddr]
      exact le_alignUp na (s.arena.base + s.arena.used) hna
    have hdaddr : na ∣ addr := by
      rw [haddr]
      exact dvd_alignUp na (s.arena.base + s.arena.used)
    have hUC : s.arena.used ≤ s.arena.capacity := hinv.usedLe
    have hcap : addr + nb ≤ s.arena.base + s.arena.capacity := by omega
    refine ⟨by omega, hdaddr, by omega, by rw [hbase, hused]; omega, hbase, hcapa,
        by rw [hused]; omega, by rw [hused, hcapa]; omega, ?_, ?_, ?_⟩
    · intro x hx
      have := hinv.liveUB x hx
      exact Or.inr (by omega)
    · intro b hb
      rw [hfl] at hb
      have h1 := hinv.freeLB b hb
      have h2 := hinv.freeUB b hb
      refine ⟨by rw [hbase]; omega, by rw [hbase, hused]; omega, hinv.freeAl b hb,
        Or.inl (by omega), hinv.freeLive b hb⟩
    · rw [hfl]
      exact hinv.freeDisj

/-! ### Invariant preservation -/

theorem inv_push_ok {α : Type} (nb na : Nat) (s : StackState α) (spine : List (Nat × α))
    (v : α) (addr : Nat) (ar : Arena)
    (hinv : Inv nb na s spine) (hnb : 1 ≤ nb) (hna : 1 ≤ na) (hdvd : na ∣ nb)
    (h : do_allocate s.arena nb na = some (addr, ar)) :
    Inv nb na (⟨ar, (addr, v, s.top_node) :: s.heap, addr⟩ : StackState α)
      ((addr, v) :: spine) := by
  obtain ⟨h1, h2, h3, h4, h5, h6, h7, h8, h9, h10, h11⟩ :=
    alloc_step nb na s spine addr ar hinv hnb hna hdvd h
  have hB := hinv.basePos
  have hfresh : ∀ x ∈ spine, x.1 ≠ addr := by
    intro x hx he
    have := h9 x hx
    unfold spanDisj at this
    omega
  refine ⟨h8, by show 1 ≤ ar.base; omega, ?_, ?_, ?_, ?_, ?_, ?_, ?_, ?_, ?_, ?_⟩
  · rw [chainIs_cons_eq]
    refine ⟨rfl, by omega, s.top_node, ?_,
      chainIs_extend s.heap addr v s.top_node spine s.top_node hinv.chain hfresh⟩
    show (if addr = addr then some (v, s.top_node) else lookupHeap s.heap addr) = _
    rw [if_pos rfl]
  · intro x hx
    rcases List.mem_cons.mp hx with hx | hx
    · subst hx
      show ar.base ≤ addr
      omega
    · have := hinv.liveLB x hx
      show ar.base ≤ x.1
      omega
  · intro x hx
    rcases List.mem_cons.mp hx with hx | hx
    · subst hx
      exact h4
    · have := hinv.liveUB x hx
      show x.1 + nb ≤ ar.base + ar.used
      omega
  · intro x hx
    rcases List.mem_cons.mp hx with hx | hx
    · subst hx
      exact h2
    · exact hinv.liveAl x hx
  · rw [List.pairwise_cons]
    exact ⟨fun y hy => h9 y hy, hinv.liveDisj⟩
  · intro b hb
    exact (h10 b hb).1
  · intro b hb
    exact (h10 b hb).2.1
  · intro b hb
    exact (h10 b hb).2.2.1
  · exact h11
  · intro b hb x hx
    rcases List.mem_cons.mp hx with hx | hx
    · subst hx
      exact (h10 b hb).2.2.2.1
    · exact (h10 b hb).2.2.2.2 x hx

theorem inv_push_fail {α : Type} (nb na : Nat) (s : StackState α) (spine : List (Nat × α))
    (addr : Nat) (ar : Arena)
    (hinv : Inv nb na s spine) (hnb : 1 ≤ nb) (hna : 1 ≤ na) (hdvd : na ∣ nb)
    (h : do_allocate s.arena nb na = some (addr, ar)) :
    Inv nb na (⟨do_deallocate ar addr nb na, s.heap, s.top_node⟩ : StackState α) spine := by
  obtain ⟨h1, h2, h3, h4, h5, h6, h7, h8, h9, h10, h11⟩ :=
    alloc_step nb na s spine addr ar hinv hnb hna hdvd h
  have hB := hinv.basePos
  rw [do_deallocate_eq_append ar addr nb na (by omega)]
  refine ⟨h8, by show 1 ≤ ar.base; omega, hinv.chain, ?_, ?_, ?_, hinv.liveDisj, ?_, ?_, ?_,
    ?_, ?_⟩
  · intro x hx
    have := hinv.liveLB x hx
    show ar.base ≤ x.1
    omega
  · intro x hx
    have := hinv.liveUB x hx
    show x.1 + nb ≤ ar.base + ar.used
    omega
  · exact hinv.liveAl
  · intro b hb
    rcases List.mem_append.mp hb with hb | hb
    · exact (h10 b hb).1
    · simp only [List.mem_singleton] at hb
      subst hb
      show ar.base ≤ addr
      omega
  · intro b hb
    rcases List.mem_append.mp hb with hb | hb
    · exact (h10 b hb).2.1
    · simp only [List.mem_singleton] at hb
      subst hb
      exact h4
  · intro b hb
    rcases List.mem_append.mp hb with hb | hb
    · exact (h10 b hb).2.2.1
    · simp only [List.mem_singleton] at hb
      subst hb
      exact h2
  · rw [List.pairwise_append]
    refine ⟨h11, List.pairwise_singleton _ _, ?_⟩
    intro b hb c hc
    simp only [List.mem_singleton] at hc
    subst hc
    exact (h10 b hb).2.2.2.1
  · intro b hb x hx
    rcases List.mem_append.mp hb with hb | hb
    · exact (h10 b hb).2.2.2.2 x hx
    · simp only [List.mem_singleton] at hb
      subst hb
      exact h9 x hx

theorem inv_pop {α : Type} (nb na : Nat) (s : StackState α) (spine : List (Nat × α))
    (hinv : Inv nb na s spine) (hnb : 1 ≤ nb) :
    Inv nb na (popS nb na s) spine.tail := by
  cases spine with
  | nil =>
    have ht : s.top_node = 0 := hinv.chain
    unfold popS
    rw [if_pos ht]
    exact hinv
  | cons x rest =>
    obtain ⟨a, v⟩ := x
    have hc := hinv.chain
    rw [chainIs_cons_eq] at hc
    obtain ⟨ht, hne, nx, hlook, hrest⟩ := hc
    have hLBa : s.arena.base ≤ a := hinv.liveLB (a, v) (by simp)
    have hUBa : a + nb ≤ s.arena.base + s.arena.used := hinv.liveUB (a, v) (by simp)
    have hAla : na ∣ a := hinv.liveAl (a, v) (by simp)
    have hld := hinv.liveDisj
    rw [List.pairwise_cons] at hld
    obtain ⟨hheadrel, hpwrest⟩ := hld
    unfold popS
    rw [ht, if_neg hne, hlook]
    show Inv nb na ({ s with top_node := nx, arena := do_deallocate s.arena a nb na }) rest
    rw [do_deallocate_eq_append s.arena a nb na hne]
    refine ⟨hinv.usedLe, hinv.basePos, hrest, ?_, ?_, ?_, hpwrest, ?_, ?_, ?_, ?_, ?_⟩
    · intro x hx
      exact hinv.liveLB x (by simp [hx])
    · intro x hx
      exact hinv.liveUB x (by simp [hx])
    · intro x hx
      exact hinv.liveAl x (by simp [hx])
    · intro b hb
      rcases List.mem_append.mp hb with hb | hb
      · exact hinv.freeLB b hb
      · simp only [List.mem_singleton] at hb
        subst hb
        exact hLBa
    · intro b hb
      rcases List.mem_append.mp hb with hb | hb
      · exact hinv.freeUB b hb
      · simp only [List.mem_singleton] at hb
        subst hb
        exact hUBa
    · intro b hb
      rcases List.mem_append.mp hb with hb | hb
      · exact hinv.freeAl b hb
      · simp only [List.mem_singleton] at hb
        subst hb
        exact hAla
    · rw [List.pairwise_append]
      refine ⟨hinv.freeDisj, List.pairwise_singleton _ _, ?_⟩
      intro b hb c hc
      simp only [List.mem_singleton] at hc
      subst hc
      exact hinv.freeLive b hb (a, v) (by simp)
    · intro b hb x hx
      rcases List.mem_append.mp hb with hb | hb
      · exact hinv.freeLive b hb x (by simp [hx])
      · simp only [List.mem_singleton] at hb
        subst hb
        exact hheadrel x hx

/-! ### Whole-run lemmas -/

theorem inv_runS {α : Type} (nb na : Nat) (hnb : 1 ≤ nb) (hna : 1 ≤ na) (hdvd : na ∣ nb)
    (ops : List (SOp α)) :
    ∀ (s : StackState α) (spine : List (Nat × α)), Inv nb na s spine →
      ∃ spine', Inv nb na (runS nb na s (spine.map Prod.snd) ops).1 spine' ∧
        spine'.map Prod.snd = (runS nb na s (spine.map Prod.snd) ops).2 := by
  induction ops with
  | nil =>
    intro s spine hinv
    exact ⟨spine, hinv, rfl⟩
  | cons op ops ih =>
    intro s spine hinv
    cases op with
    | push v cf =>
      cases hall : do_allocate s.arena nb na with
      | none =>
        have hp : pushS nb na s v cf = (s, PushOutcome.outOfMemory) := by
          unfold pushS
          rw [hall]
        simp only [runS, hp]
        exact ih s spine hinv
      | some r =>
        obtain ⟨addr, ar⟩ := r
        cases cf with
        | true =>
          have hp : pushS nb na s v true =
              (⟨do_deallocate ar addr nb na, s.heap, s.top_node⟩, PushOutcome.ctorFailed) := by
            unfold pushS
            rw [hall]
            rfl
          simp only [runS, hp]
          exact ih _ spine (inv_push_fail nb na s spine addr ar hinv hnb hna hdvd hall)
        | false =>
          have hp : pushS nb na s v false =
              (⟨ar, (addr, v, s.top_node) :: s.heap, addr⟩, PushOutcome.ok) := by
            unfold pushS
            rw [hall]
            rfl
          simp only [runS, hp]
          exact ih _ ((addr, v) :: spine)
            (inv_push_ok nb na s spine v addr ar hinv hnb hna hdvd hall)
    | pop =>
      simp only [runS]
      have htail : (spine.map Prod.snd).tail = spine.tail.map Prod.snd := by
        cases spine <;> rfl
      rw [htail]
      exact ih _ spine.tail (inv_pop nb na s spine hinv hnb)

theorem runS_model_length {α : Type} (nb na : Nat) (ops : List (SOp α)) :
    ∀ (s : StackState α) (m : List α),
      (runS nb na s m ops).2.length ≤ m.length + ops.length := by
  induction ops with
  | nil =>
    intro s m
    simp [runS]
  | cons op ops ih =>
    intro s m
    cases op with
    | push v cf =>
      rcases hp : pushS nb na s v cf with ⟨s1, o⟩
      cases o with
      | ok =>
        simp only [runS, hp]
        have := ih s1 (v :: m)
        simp only [List.length_cons] at this ⊢
        omega
      | outOfMemory =>
        simp only [runS, hp]
        have := ih s1 m
        simp only [List.length_cons] at this ⊢
        omega
      | ctorFailed =>
        simp only [runS, hp]
        have := ih s1 m
        simp only [List.length_cons] at this ⊢
        omega
    | pop =>
      simp only [runS]
      have h1 := ih (popS nb na s) m.tail
      have h2 : m.tail.length ≤ m.length := by
        cases m <;> simp
      simp only [List.length_cons] at h1 ⊢
      omega

theorem iterToList_eq_of_chain {α : Type} (h : List (Nat × α × Nat))
    (spine : List (Nat × α)) :
    ∀ (t fuel : Nat), chainIs h t spine → spine.length ≤ fuel →
      iterToList h fuel t = spine.map Prod.snd := by
  induction spine with
  | nil =>
    intro t fuel hc _
    have ht : t = 0 := hc
    cases fuel with
    | zero => rfl
    | succ f =>
      unfold iterToList
      rw [if_pos ht]
      rfl
  | cons x rest ih =>
    obtain ⟨a, v⟩ := x
    intro t fuel hc hlen
    rw [chainIs_cons_eq] at hc
    obtain ⟨ht, hne, nx, hlook, hrest⟩ := hc
    subst ht
    cases fuel with
    | zero => simp at hlen
    | succ f =>
      unfold iterToList
      rw [if_neg hne, hlook]
      show v :: iterToList h f nx = v :: rest.map Prod.snd
      rw [ih nx f hrest (by simp at hlen; omega)]

/-! ### C5 — the chain spells the live values, most recent first -/

/-- C5: starting from an empty stack on a fresh arena, after any sequence of
push/pop calls the traversal from `top_node` along the `next` links (which
is exactly what a full `begin()`–`end()` iteration yields) produces
precisely the live — pushed and not yet popped — values, most recently
pushed first.  Concretely, pushing 1, 2, 3 makes the iteration yield
3, 2, 1; the top is then 3, popping exposes 2, and popping again leaves
top = 1. -/
theorem stack_lifo_order {α : Type} (nb na B C : Nat) (ops : List (SOp α))
    (hnb : 1 ≤ nb) (hna : 1 ≤ na) (hdvd : na ∣ nb) (hB : 1 ≤ B) :
    (iterToList (runS nb na ⟨⟨B, C, 0, []⟩, [], 0⟩ [] ops).1.heap (ops.length + 1)
        (runS nb na ⟨⟨B, C, 0, []⟩, [], 0⟩ [] ops).1.top_node =
      (runS nb na ⟨⟨B, C, 0, []⟩, [], 0⟩ [] ops).2) ∧
    (let s3 := (runS 8 4 (⟨⟨4, 64, 0, []⟩, [], 0⟩ : StackState Nat) []
        [SOp.push 1 false, SOp.push 2 false, SOp.push 3 false]).1
     iterToList s3.heap 4 s3.top_node = [3, 2, 1] ∧ topS s3 = some 3 ∧
       topS (popS 8 4 s3) = some 2 ∧ topS (popS 8 4 (popS 8 4 s3)) = some 1) := by
  constructor
  · have hinv0 : Inv nb na (⟨⟨B, C, 0, []⟩, [], 0⟩ : StackState α) [] :=
      ⟨Nat.zero_le _, hB, rfl, by simp, by simp, by simp, List.Pairwise.nil,
        by simp, by simp, by simp, List.Pairwise.nil, by simp⟩
    obtain ⟨spine', hinv', hmap⟩ :=
      inv_runS nb na hnb hna hdvd ops ⟨⟨B, C, 0, []⟩, [], 0⟩ [] hinv0
    simp only [List.map_nil] at hinv' hmap
    have hlen : spine'.length ≤ ops.length + 1 := by
      have h1 := runS_model_length nb na ops (⟨⟨B, C, 0, []⟩, [], 0⟩ : StackState α) []
      have h2 : spine'.length = (runS nb na ⟨⟨B, C, 0, []⟩, [], 0⟩ [] ops).2.length := by
        rw [← hmap, List.length_map]
      simp only [List.length_nil] at h1
      omega
    rw [← hmap]
    exact iterToList_eq_of_chain _ spine' _ (ops.length + 1) hinv'.chain hlen
  · exact ⟨by decide, by decide, by decide, by decide⟩

theorem stack_lifo_order_witness :
    ((1 : Nat) ≤ 8 ∧ (1 : Nat) ≤ 4 ∧ (4 : Nat) ∣ 8 ∧ (1 : Nat) ≤ 4) ∧
      iterToList (runS 8 4 (⟨⟨4, 64, 0, []⟩, [], 0⟩ : StackState Nat) []
          [SOp.push 1 false, SOp.push 2 false, SOp.push 3 false]).1.heap
        ([SOp.push (1 : Nat) false, SOp.push 2 false, SOp.push 3 false].length + 1)
        (runS 8 4 (⟨⟨4, 64, 0, []⟩, [], 0⟩ : StackState Nat) []
          [SOp.push 1 false, SOp.push 2 false, SOp.push 3 false]).1.top_node =
      (runS 8 4 (⟨⟨4, 64, 0, []⟩, [], 0⟩ : StackState Nat) []
        [SOp.push 1 false, SOp.push 2 false, SOp.push 3 false]).2 :=
  ⟨⟨by decide, by decide, by decide, by decide⟩,
    (stack_lifo_order 8 4 4 64 [SOp.push 1 false, SOp.push 2 false, SOp.push 3 false]
        (by decide) (by decide) (by decide) (by decide)).1⟩

end OOPLab5
